import Mathlib

/-!
Verification of the gnark r1cs front-end constraint builder
(frontend cs_api.go, the twisted-Edwards parameter registry, and the
noComputation test circuit).

The builder state is embedded as an explicit record threaded through the
operations; `interface{}` operands are the tagged type `CsOp`; big.Int
arithmetic is `Int`.  Helpers of the builder that are not part of the
given sources (`reduce`, `newInternalVariable`, `getOneVariable`,
`completeDanglingVariable`, the coefficient pool) are modelled from the
spec, as marked in their doc comments; coefficients are stored inline in
terms instead of through the interning pool, which the spec allows
(reduction deduplicates by value, ids are value-determined).
-/

/-- Wire visibility. Modelled from the spec: visibility is one of
public, secret, internal, one; the one-wire is a distinguished constant-1
wire with a fixed id. -/
inductive Vis where
  | publicInput
  | secretInput
  | internal
  | one
deriving DecidableEq, Repr

/-- Rank used for the (visibility, wire-id) sort key of `reduce`. -/
def visRank : Vis → Nat
  | .publicInput => 0
  | .secretInput => 1
  | .internal => 2
  | .one => 3

/-- Inverse of `visRank` on its range. -/
def visUnrank : Nat → Vis
  | 0 => .publicInput
  | 1 => .secretInput
  | 2 => .internal
  | _ => .one

/-- A wire: visibility plus numeric id inside its namespace
(Go struct Wire{visibility, id, val}; the val pointer is solver state and
not part of the builder data). -/
structure Wire where
  vis : Vis
  wid : Nat
deriving DecidableEq, Repr

/-- A term of a linear expression: a field coefficient attached to a wire.
Source terms pack a coefficient id; the pool is modelled by storing the
coefficient value itself (spec 4.2: ids are interned by value). -/
structure Term where
  coeff : Int
  wire : Wire
deriving DecidableEq, Repr

/-- Sort key of a term: (visibility, wire-id), lexicographic. -/
def key (t : Term) : Nat ×ₗ Nat := toLex (visRank t.wire.vis, t.wire.wid)

/-- Wire denoted by a sort key. -/
def wireOfKey (k : Nat ×ₗ Nat) : Wire := ⟨visUnrank (ofLex k).1, (ofLex k).2⟩

/-- The user-visible Variable handle: an optional backing wire, a linear
expression, and the known-boolean flag (Go struct Variable{Wire; linExp;
isBoolean}).  The Go zero-value wire is `none`. -/
structure Variable where
  wire : Option Wire
  linExp : List Term
  isBoolean : Bool
deriving DecidableEq, Repr

/-- Solving hint carried by an R1C (compiled.SingleOutput / compiled.BinaryDec). -/
inductive Hint where
  | singleOutput
  | binaryDec
deriving DecidableEq, Repr

/-- A rank-1 constraint L * R = O with its solving hint. -/
structure R1C where
  L : List Term
  R : List Term
  O : List Term
  hint : Hint
deriving DecidableEq, Repr

/-- newR1C builds an R1C from the linear expressions of three Variables
(the Go default hint, when none is passed, is SingleOutput; callers here
always pass the hint explicitly). -/
def newR1C (l r o : Variable) (h : Hint) : R1C := ⟨l.linExp, r.linExp, o.linExp, h⟩

/-- The builder state: field modulus of the selected curve, internal wire
counter, the ordered constraint list and the ordered assertion list.
Assertions in the source carry an extra diagnostic log entry built from
runtime call stacks; that string content is not modelled. -/
structure ConstraintSystem where
  p : Nat
  nInternal : Nat
  constraints : List R1C
  assertions : List R1C
deriving DecidableEq, Repr

/-- The distinguished one-wire. -/
def oneWire : Wire := ⟨.one, 0⟩

/-- Modelled from the spec: getOneVariable returns the cached singleton
Variable for the one-wire, linear expression 1·one. -/
def getOneVariable : Variable := ⟨some oneWire, [⟨1, oneWire⟩], false⟩

/-- The wire of the n-th internal variable. -/
def internalWire (n : Nat) : Wire := ⟨.internal, n⟩

/-- The Variable handle returned for a fresh internal wire n:
singleton linear expression 1·wire. -/
def freshVar (n : Nat) : Variable := ⟨some (internalWire n), [⟨1, internalWire n⟩], false⟩

/-- Modelled from the spec: newInternalVariable allocates a fresh internal
wire and returns the Variable whose linear expression is the singleton
term 1·wire. -/
def newInternalVariable (cs : ConstraintSystem) : Variable × ConstraintSystem :=
  (freshVar cs.nInternal, { cs with nInternal := cs.nInternal + 1 })

/-- Modelled from the spec: completeDanglingVariable sets the linear
expression of a dangling Variable (empty expression, wire attribute set)
to the singleton 1·wire; otherwise leaves the Variable unchanged.  The Go
function mutates through a pointer; every embedded operation applies it
to its own copy of the argument, as the source does. -/
def completeDanglingVariable (v : Variable) : Variable :=
  if v.linExp.isEmpty then
    match v.wire with
    | some w => { v with linExp := [⟨1, w⟩] }
    | none => v
  else v

/-- A dynamic operand of the builder api (Go interface{}): either a
Variable handle or a value convertible by FromInterface to a big.Int. -/
inductive CsOp where
  | var (v : Variable)
  | const (n : Int)
deriving DecidableEq, Repr

/-- True when the operand's dynamic type is Variable. -/
def isVarOp : CsOp → Bool
  | .var _ => true
  | .const _ => false

/-- Raw coefficient sum of the terms of `l` whose key is `k`. -/
def rawSum (l : List Term) (k : Nat ×ₗ Nat) : Int :=
  ((l.filter (fun t => decide (key t = k))).map Term.coeff).sum

/-- Field coefficient of key `k` in `l`: the raw sum reduced modulo p. -/
def coeffAt (p : Nat) (l : List Term) (k : Nat ×ₗ Nat) : Int :=
  rawSum l k % (p : Int)

/-- Keys of `l` with non-zero field coefficient, sorted ascending. -/
def supportKeys (p : Nat) (l : List Term) : List (Nat ×ₗ Nat) :=
  List.insertionSort (· ≤ ·)
    (((l.map key).dedup).filter (fun k => decide (coeffAt p l k ≠ 0)))

/-- Modelled from the spec: reduce sorts the terms by (visibility,
wire-id) ascending, folds runs of equal-key terms by summing their
coefficients in the field, and drops terms whose summed coefficient is
zero.  Represented directly as the sorted list of keys with non-zero
field coefficient, each carrying its summed coefficient. -/
def reduce (p : Nat) (l : List Term) : List Term :=
  (supportKeys p l).map (fun k => ⟨coeffAt p l k, wireOfKey k⟩)

/-- negateLinExp maps every term coefficient c to −c, keeping the wires. -/
def negateLinExp (l : List Term) : List Term :=
  l.map (fun t => ⟨-t.coeff, t.wire⟩)

/-- mulConstant multiplies every coefficient of v's expression by lambda;
the result has no backing wire and a cleared boolean flag
(Go: Variable{Wire{}, linExp, false}). -/
def mulConstant (lambda : Int) (v : Variable) : Variable :=
  ⟨none, v.linExp.map (fun t => ⟨t.coeff * lambda, t.wire⟩), false⟩

/-- Constant: a Variable operand is completed and returned as is; the
value 1 yields the cached one-wire Variable; any other value k yields
mulConstant(k, oneVariable). -/
def Constant (i : CsOp) : Variable :=
  match i with
  | .var t => completeDanglingVariable t
  | .const n => if n = 1 then getOneVariable else mulConstant n getOneVariable

/-- The linear expression contributed by one operand of Add / Sub:
a Variable is completed and its expression cloned, anything else goes
through Constant. -/
def operandLinExp (i : CsOp) : List Term :=
  match i with
  | .var t => (completeDanglingVariable t).linExp
  | .const n => (Constant (.const n)).linExp

/-- Add returns i1+i2+...: the operand expressions are concatenated and
the result reduced; no constraint is emitted. -/
def ConstraintSystem.Add (cs : ConstraintSystem) (i1 i2 : CsOp) (rest : List CsOp) : Variable :=
  ⟨none,
    reduce cs.p ((i1 :: i2 :: rest).foldl (fun acc i => acc ++ operandLinExp i) []),
    false⟩

/-- Sub returns i1 - i2: i1's expression concatenated with the negation
of i2's, then reduced; no constraint is emitted. -/
def ConstraintSystem.Sub (cs : ConstraintSystem) (i1 i2 : CsOp) : Variable :=
  ⟨none, reduce cs.p (operandLinExp i1 ++ negateLinExp (operandLinExp i2)), false⟩

/-- One multiplication step of Mul (the inner `mul` closure): two Variable
operands allocate a fresh internal wire and record R1C(t1, t2, res) with
the default single-output hint; a constant times a Variable is
mulConstant with no constraint; two constants multiply in the integers
and go through Constant. -/
def ConstraintSystem.mulOp (cs : ConstraintSystem) (i1 i2 : CsOp) : Variable × ConstraintSystem :=
  match i1 with
  | .var t1 =>
    let t1 := completeDanglingVariable t1
    match i2 with
    | .var t2 =>
      let t2 := completeDanglingVariable t2
      let rc := newInternalVariable cs
      (rc.1, { rc.2 with constraints := rc.2.constraints ++ [newR1C t1 t2 rc.1 .singleOutput] })
    | .const n => (mulConstant n t1, cs)
  | .const n1 =>
    match i2 with
    | .var t2 => (mulConstant n1 (completeDanglingVariable t2), cs)
    | .const n2 => (Constant (.const (n1 * n2)), cs)

/-- Mul returns i1 * i2 * ... by left-folding `mulOp`. -/
def ConstraintSystem.Mul (cs : ConstraintSystem) (i1 i2 : CsOp) (rest : List CsOp) :
    Variable × ConstraintSystem :=
  rest.foldl (fun rc i => rc.2.mulOp (.var rc.1) i) (cs.mulOp i1 i2)

/-- The boolean assertion recorded for v: R1C(v, 1 − v, 0), where 1 − v is
Sub(1, v) and 0 is Constant(0) (the term 0·one).  Sub reads only the
field modulus from the builder state. -/
def boolR1C (p : Nat) (v : Variable) : R1C :=
  newR1C v (ConstraintSystem.Sub ⟨p, 0, [], []⟩ (.const 1) (.var v))
    (Constant (.const 0)) .singleOutput

/-- AssertIsBoolean: after completion, a handle already flagged boolean is
skipped; otherwise R1C(v, 1 − v, 0) is appended to the assertion list.
The source sets isBoolean on its by-value copy of v, which is dropped on
return, so no flag change is visible to the caller. -/
def ConstraintSystem.AssertIsBoolean (cs : ConstraintSystem) (v : Variable) : ConstraintSystem :=
  let v := completeDanglingVariable v
  if v.isBoolean then cs
  else { cs with assertions := cs.assertions ++ [boolR1C cs.p v] }

/-- Select(b, i1, i2): asserts b boolean, then, whenever at least one of
i1, i2 is a Variable, allocates z and records R1C(b, i1 − i2, z − i2);
with two constant operands the source computes diff := n1.Sub(&n2, &n1),
that is n2 − n1, and returns Add(Mul(b, diff), i2) with no constraint. -/
def ConstraintSystem.Select (cs : ConstraintSystem) (b : Variable) (i1 i2 : CsOp) :
    Variable × ConstraintSystem :=
  let b := completeDanglingVariable b
  let cs := cs.AssertIsBoolean b
  match i1 with
  | .var t1 =>
    let t1 := completeDanglingVariable t1
    let rc := newInternalVariable cs
    let v := rc.2.Sub (.var t1) i2
    let w := rc.2.Sub (.var rc.1) i2
    (rc.1, { rc.2 with constraints := rc.2.constraints ++ [newR1C b v w .singleOutput] })
  | .const n1 =>
    match i2 with
    | .var t2 =>
      let t2 := completeDanglingVariable t2
      let rc := newInternalVariable cs
      let v := rc.2.Sub (.const n1) (.var t2)
      let w := rc.2.Sub (.var rc.1) (.var t2)
      (rc.1, { rc.2 with constraints := rc.2.constraints ++ [newR1C b v w .singleOutput] })
    | .const n2 =>
      let diff := n2 - n1
      let rc := cs.Mul (.var b) (.const diff) []
      (rc.2.Add (.var rc.1) (.const n2) [], rc.2)

/-- The allocation loop of ToBinary: n fresh internal variables, each
immediately asserted boolean. -/
def ConstraintSystem.allocBits (cs : ConstraintSystem) : Nat → List Variable × ConstraintSystem
  | 0 => ([], cs)
  | n+1 =>
    let rc := newInternalVariable cs
    let cs := rc.2.AssertIsBoolean rc.1
    let vs := cs.allocBits n
    (rc.1 :: vs.1, vs.2)

/-- One iteration of the accumulation loop of ToBinary on the state
(v, coeff, cs): _v := Mul(coeff, b) (constraint-free), v := Add(v, _v)
(constraint-free), coeff := coeff·2. -/
def toBinaryStep (s : Variable × Int × ConstraintSystem) (b : Variable) :
    Variable × Int × ConstraintSystem :=
  let wc := s.2.2.Mul (.const s.2.1) (.var b) []
  (wc.2.Add (.var s.1) (.var wc.1) [], s.2.1 * 2, wc.2)

/-- ToBinary(a, nbBits): allocates nbBits fresh wires asserted boolean,
accumulates v = Σ 2^i·b_i through constraint-free Mul and Add calls, and
records the single constraint R1C(v, 1, a) with the binary-decomposition
hint; the bits are returned little-endian.  For nbBits = 0 the source
reads res[0] of the empty slice and fails with an index-out-of-range
panic, modelled as `none`. -/
def ConstraintSystem.ToBinary (cs : ConstraintSystem) (a : Variable) (nbBits : Nat) :
    Option (List Variable × ConstraintSystem) :=
  let a := completeDanglingVariable a
  let rs := cs.allocBits nbBits
  match rs.1 with
  | [] => none
  | b0 :: brest =>
    let vc := rs.2.Mul (.var b0) (.const 1) []
    let fold := brest.foldl toBinaryStep (vc.1, 2, vc.2)
    some (rs.1,
      { fold.2.2 with constraints :=
          fold.2.2.constraints ++ [newR1C fold.1 getOneVariable a .binaryDec] })

/-- Curve identities of the gnark-crypto ecc package at this revision:
the six supported curves plus UNKNOWN. -/
inductive ID where
  | UNKNOWN
  | BN254
  | BLS12_377
  | BLS12_381
  | BLS24_315
  | BW6_761
  | BW6_633
deriving DecidableEq, Repr

/-- The modulus-selection switch of IsZero: each supported identity reads
the fr modulus of its curve from the external gnark-crypto fr packages
(given here as the table frMod); the default branch panics with
"not implemented", modelled as `none`. -/
def frModuli (frMod : ID → Nat) (id : ID) : Option Nat :=
  match id with
  | .BN254 => some (frMod .BN254)
  | .BLS12_381 => some (frMod .BLS12_381)
  | .BLS12_377 => some (frMod .BLS12_377)
  | .BW6_761 => some (frMod .BW6_761)
  | .BLS24_315 => some (frMod .BLS24_315)
  | .BW6_633 => some (frMod .BW6_633)
  | .UNKNOWN => none

/-- Byte length of the big-endian big.Int encoding (Go big.Int.Bytes). -/
def byteLength (n : Nat) : Nat := if n = 0 then 0 else (Nat.log2 n + 8) / 8

/-- IsZero(a, id): selects the field modulus (panicking on an unsupported
identity), then computes a^(p−1) by square-and-multiply over the bits of
p from index nbBits−1 down to 1 followed by one extra squaring, every
product going through Mul; returns Sub(1, result). -/
def ConstraintSystem.IsZero (frMod : ID → Nat) (cs : ConstraintSystem) (a : Variable)
    (id : ID) : Except String (Variable × ConstraintSystem) :=
  match frModuli frMod id with
  | none => .error "not implemented"
  | some expo =>
    let nbBits := 8 * byteLength expo
    let fold := ((List.range' 1 (nbBits - 1)).reverse).foldl
      (fun (s : Variable × ConstraintSystem) i =>
        let sq := s.2.Mul (.var s.1) (.var s.1) []
        if expo.testBit i then sq.2.Mul (.var sq.1) (.var a) [] else sq)
      (Constant (.const 1), cs)
    let sq := fold.2.Mul (.var fold.1) (.var fold.1) []
    .ok (sq.2.Sub (.const 1) (.var sq.1), sq.2)

/-- Parameters returned by the external gnark-crypto GetEdwardsCurve of a
curve (A, D, Cofactor, Order, Base.X, Base.Y), as converted to big.Int by
FromInterface.  The concrete values live outside the given sources, so
the registry is parametric in this table. -/
structure ExtParams where
  A : Int
  D : Int
  Cofactor : Int
  Order : Int
  BaseX : Int
  BaseY : Int
deriving DecidableEq, Repr

/-- EdCurve stores the info on the chosen edwards curve. -/
structure EdCurve where
  A : Int
  D : Int
  Cofactor : Int
  Order : Int
  BaseX : Int
  BaseY : Int
  Modulus : Int
  id : ID
deriving DecidableEq, Repr

/-- The Go zero value EdCurve{}: zero parameters, UNKNOWN identity. -/
def emptyEdCurve : EdCurve := ⟨0, 0, 0, 0, 0, 0, 0, .UNKNOWN⟩

/-- Constructor newEdBN254: external Edwards parameters of BN254 plus the
BN254 fr modulus. -/
def newEdBN254 (ext : ID → ExtParams) (frMod : ID → Nat) : EdCurve :=
  ⟨(ext .BN254).A, (ext .BN254).D, (ext .BN254).Cofactor, (ext .BN254).Order,
    (ext .BN254).BaseX, (ext .BN254).BaseY, (frMod .BN254 : Int), .BN254⟩

/-- Constructor newEdBLS381. -/
def newEdBLS381 (ext : ID → ExtParams) (frMod : ID → Nat) : EdCurve :=
  ⟨(ext .BLS12_381).A, (ext .BLS12_381).D, (ext .BLS12_381).Cofactor, (ext .BLS12_381).Order,
    (ext .BLS12_381).BaseX, (ext .BLS12_381).BaseY, (frMod .BLS12_381 : Int), .BLS12_381⟩

/-- Constructor newEdBLS377. -/
def newEdBLS377 (ext : ID → ExtParams) (frMod : ID → Nat) : EdCurve :=
  ⟨(ext .BLS12_377).A, (ext .BLS12_377).D, (ext .BLS12_377).Cofactor, (ext .BLS12_377).Order,
    (ext .BLS12_377).BaseX, (ext .BLS12_377).BaseY, (frMod .BLS12_377 : Int), .BLS12_377⟩

/-- Constructor newEdBW761. -/
def newEdBW761 (ext : ID → ExtParams) (frMod : ID → Nat) : EdCurve :=
  ⟨(ext .BW6_761).A, (ext .BW6_761).D, (ext .BW6_761).Cofactor, (ext .BW6_761).Order,
    (ext .BW6_761).BaseX, (ext .BW6_761).BaseY, (frMod .BW6_761 : Int), .BW6_761⟩

/-- Constructor newEdBLS315. -/
def newEdBLS315 (ext : ID → ExtParams) (frMod : ID → Nat) : EdCurve :=
  ⟨(ext .BLS24_315).A, (ext .BLS24_315).D, (ext .BLS24_315).Cofactor, (ext .BLS24_315).Order,
    (ext .BLS24_315).BaseX, (ext .BLS24_315).BaseY, (frMod .BLS24_315 : Int), .BLS24_315⟩

/-- Constructor newEdBW633. -/
def newEdBW633 (ext : ID → ExtParams) (frMod : ID → Nat) : EdCurve :=
  ⟨(ext .BW6_633).A, (ext .BW6_633).D, (ext .BW6_633).Cofactor, (ext .BW6_633).Order,
    (ext .BW6_633).BaseX, (ext .BW6_633).BaseY, (frMod .BW6_633 : Int), .BW6_633⟩

/-- The newTwistedEdwards map as filled by the package init: exactly the
six supported identities are registered, each to its constructor. -/
def newTwistedEdwards (ext : ID → ExtParams) (frMod : ID → Nat) (id : ID) :
    Option EdCurve :=
  match id with
  | .BLS12_381 => some (newEdBLS381 ext frMod)
  | .BN254 => some (newEdBN254 ext frMod)
  | .BLS12_377 => some (newEdBLS377 ext frMod)
  | .BW6_761 => some (newEdBW761 ext frMod)
  | .BLS24_315 => some (newEdBLS315 ext frMod)
  | .BW6_633 => some (newEdBW633 ext frMod)
  | .UNKNOWN => none

/-- NewEdCurve returns an Edwards curve parameters record and a nil error
on a registered identity, and (EdCurve{}, unknown-curve error) on a miss,
mirroring the Go pair return. -/
def NewEdCurve (ext : ID → ExtParams) (frMod : ID → Nat) (id : ID) :
    EdCurve × Option String :=
  match newTwistedEdwards ext frMod id with
  | some c => (c, none)
  | none => (emptyEdCurve, some "unknown curve id")

/-- Exponent-accumulation step of the IsZero loop at bit i: squaring
doubles the exponent, the conditional multiply adds the bit. -/
def expStep (p : Nat) (e : Nat) (i : Nat) : Nat :=
  2 * e + (if p.testBit i then 1 else 0)

/-- The exponent to which IsZero raises its argument: the loop walks the
bits of p from index 8·byteLength(p) − 1 down to 1, and the final extra
squaring doubles the accumulated exponent once more. -/
def isZeroExponent (p : Nat) : Nat :=
  2 * (((List.range' 1 (8 * byteLength p - 1)).reverse).foldl (expStep p) 0)

/-- Witness-value step of the IsZero loop in the field: square, then
multiply by a when the bit of p is set. -/
def valStep (p : Nat) (a : ZMod p) (r : ZMod p) (i : Nat) : ZMod p :=
  if p.testBit i then r * r * a else r * r

/-- Witness value computed by IsZero(a) over the field of order p: the
square-and-multiply loop of the source evaluated on field values, the
final extra squaring, then 1 − result. -/
def isZeroVal (p : Nat) (a : ZMod p) : ZMod p :=
  let res := ((List.range' 1 (8 * byteLength p - 1)).reverse).foldl (valStep p a) 1
  1 - res * res

/-- visUnrank inverts visRank. -/
theorem visUnrank_visRank (v : Vis) : visUnrank (visRank v) = v := by
  cases v <;> rfl

/-- Rebuilding a term from the key of an existing term preserves the key. -/
theorem key_mk_wireOfKey (c : Int) (t : Term) : key ⟨c, wireOfKey (key t)⟩ = key t := by
  unfold key wireOfKey
  simp [visUnrank_visRank]

/-- rawSum of the empty expression. -/
theorem rawSum_nil (k : Nat ×ₗ Nat) : rawSum [] k = 0 := rfl

/-- rawSum of a cons. -/
theorem rawSum_cons (t : Term) (l : List Term) (k : Nat ×ₗ Nat) :
    rawSum (t :: l) k = (if key t = k then t.coeff else 0) + rawSum l k := by
  unfold rawSum
  rw [List.filter_cons]
  by_cases h : key t = k <;> simp [h]

/-- rawSum distributes over concatenation. -/
theorem rawSum_append (l1 l2 : List Term) (k : Nat ×ₗ Nat) :
    rawSum (l1 ++ l2) k = rawSum l1 k + rawSum l2 k := by
  unfold rawSum
  rw [List.filter_append, List.map_append, List.sum_append]

/-- A key outside the key image has raw sum zero. -/
theorem rawSum_eq_zero_of_not_mem (l : List Term) (k : Nat ×ₗ Nat)
    (h : k ∉ l.map key) : rawSum l k = 0 := by
  unfold rawSum
  have hf : l.filter (fun t => decide (key t = k)) = [] := by
    rw [List.filter_eq_nil_iff]
    intro t ht
    simp only [decide_eq_true_eq]
    intro hkey
    exact h (List.mem_map.mpr ⟨t, ht, hkey⟩)
  rw [hf]
  rfl

/-- Membership in supportKeys is exactly non-vanishing of the field
coefficient. -/
theorem mem_supportKeys (p : Nat) (l : List Term) (k : Nat ×ₗ Nat) :
    k ∈ supportKeys p l ↔ coeffAt p l k ≠ 0 := by
  unfold supportKeys
  rw [(List.perm_insertionSort _ _).mem_iff, List.mem_filter]
  simp only [List.mem_dedup, decide_eq_true_eq]
  constructor
  · rintro ⟨-, h⟩
    exact h
  · intro h
    refine ⟨?_, h⟩
    by_contra hk
    apply h
    unfold coeffAt
    rw [rawSum_eq_zero_of_not_mem l k hk]
    simp

/-- Members of supportKeys are keys of terms of l. -/
theorem mem_supportKeys_exists (p : Nat) (l : List Term) (k : Nat ×ₗ Nat)
    (h : k ∈ supportKeys p l) : ∃ t ∈ l, key t = k := by
  unfold supportKeys at h
  rw [(List.perm_insertionSort _ _).mem_iff, List.mem_filter] at h
  rcases h with ⟨h1, -⟩
  rw [List.mem_dedup] at h1
  exact List.mem_map.mp h1

/-- supportKeys has no duplicate keys. -/
theorem supportKeys_nodup (p : Nat) (l : List Term) : (supportKeys p l).Nodup := by
  unfold supportKeys
  exact (List.perm_insertionSort _ _).nodup_iff.mpr ((l.map key).nodup_dedup.filter _)

/-- supportKeys is sorted ascending. -/
theorem supportKeys_sorted (p : Nat) (l : List Term) :
    List.Sorted (· ≤ ·) (supportKeys p l) :=
  List.sorted_insertionSort _ _

/-- rawSum over a keyed map of a nodup key list picks out the single
matching entry. -/
theorem rawSum_map_keyed (f : (Nat ×ₗ Nat) → Term) (k : Nat ×ₗ Nat) :
    ∀ ks : List (Nat ×ₗ Nat), (∀ k' ∈ ks, key (f k') = k') → ks.Nodup →
    rawSum (ks.map f) k = if k ∈ ks then (f k).coeff else 0 := by
  intro ks
  induction ks with
  | nil => intro _ _; simp [rawSum_nil]
  | cons a ks ih =>
    intro hf hnd
    rw [List.map_cons, rawSum_cons]
    have ha : key (f a) = a := hf a (by simp)
    have hnd' : ks.Nodup := (List.nodup_cons.mp hnd).2
    have hf' : ∀ k' ∈ ks, key (f k') = k' := fun k' hk' => hf k' (by simp [hk'])
    rw [ih hf' hnd']
    by_cases hak : a = k
    · subst hak
      have hknot : a ∉ ks := (List.nodup_cons.mp hnd).1
      simp [ha, hknot]
    · have hfa : ¬ key (f a) = k := by rw [ha]; exact hak
      simp only [hfa, if_false, Int.zero_add]
      have hka : ¬ k = a := fun h => hak h.symm
      have hmem : (k ∈ ks) ↔ (k ∈ a :: ks) := by simp [hka]
      exact if_congr hmem rfl rfl

/-- The raw sums of a reduced expression are the field coefficients of
the original expression. -/
theorem rawSum_reduce (p : Nat) (l : List Term) (k : Nat ×ₗ Nat) :
    rawSum (reduce p l) k = coeffAt p l k := by
  unfold reduce
  rw [rawSum_map_keyed _ k (supportKeys p l) ?keyed (supportKeys_nodup p l)]
  case keyed =>
    intro k' hk'
    obtain ⟨t, _, rfl⟩ := mem_supportKeys_exists p l k' hk'
    exact key_mk_wireOfKey _ t
  by_cases h : k ∈ supportKeys p l
  · simp [h]
  · rw [if_neg h]
    have := (mem_supportKeys p l k).not.mp h
    rw [not_not] at this
    exact this.symm

/-- Reducing is invariant on field coefficients. -/
theorem coeffAt_reduce (p : Nat) (l : List Term) (k : Nat ×ₗ Nat) :
    coeffAt p (reduce p l) k = coeffAt p l k := by
  unfold coeffAt
  rw [show rawSum (reduce p l) k = coeffAt p l k from rawSum_reduce p l k]
  unfold coeffAt
  exact Int.emod_emod_of_dvd _ dvd_rfl

/-- Two expressions with the same field coefficients reduce to the same
canonical expression. -/
theorem reduce_congr (p : Nat) (l1 l2 : List Term)
    (h : ∀ k, coeffAt p l1 k = coeffAt p l2 k) : reduce p l1 = reduce p l2 := by
  have hperm : List.Perm (supportKeys p l1) (supportKeys p l2) := by
    apply List.perm_of_nodup_nodup_toFinset_eq (supportKeys_nodup p l1)
      (supportKeys_nodup p l2)
    ext k
    simp only [List.mem_toFinset]
    rw [mem_supportKeys, mem_supportKeys, h k]
  have hsk : supportKeys p l1 = supportKeys p l2 :=
    List.eq_of_perm_of_sorted hperm (supportKeys_sorted p l1) (supportKeys_sorted p l2)
  unfold reduce
  rw [hsk]
  apply List.map_congr_left
  intro k _
  rw [h k]

/-- Reduction is idempotent. -/
theorem reduce_idem (p : Nat) (l : List Term) : reduce p (reduce p l) = reduce p l :=
  reduce_congr p _ _ (fun k => coeffAt_reduce p l k)

/-- Replacing the left part of a concatenation by its reduction does not
change field coefficients. -/
theorem coeffAt_reduce_append_left (p : Nat) (l1 l2 : List Term) (k : Nat ×ₗ Nat) :
    coeffAt p (reduce p l1 ++ l2) k = coeffAt p (l1 ++ l2) k := by
  unfold coeffAt
  rw [rawSum_append, rawSum_append, rawSum_reduce]
  unfold coeffAt
  conv_lhs => rw [Int.add_emod]
  conv_rhs => rw [Int.add_emod]
  rw [Int.emod_emod_of_dvd _ dvd_rfl]

/-- Same on the right. -/
theorem coeffAt_reduce_append_right (p : Nat) (l1 l2 : List Term) (k : Nat ×ₗ Nat) :
    coeffAt p (l1 ++ reduce p l2) k = coeffAt p (l1 ++ l2) k := by
  unfold coeffAt
  rw [rawSum_append, rawSum_append, rawSum_reduce]
  unfold coeffAt
  conv_lhs => rw [Int.add_emod]
  conv_rhs => rw [Int.add_emod]
  rw [Int.emod_emod_of_dvd _ dvd_rfl]

/-- Concatenation order does not change field coefficients. -/
theorem coeffAt_append_comm (p : Nat) (l1 l2 : List Term) (k : Nat ×ₗ Nat) :
    coeffAt p (l1 ++ l2) k = coeffAt p (l2 ++ l1) k := by
  unfold coeffAt
  rw [rawSum_append, rawSum_append, Int.add_comm]

/-- completeDanglingVariable never changes the boolean flag. -/
theorem completeDangling_isBoolean (v : Variable) :
    (completeDanglingVariable v).isBoolean = v.isBoolean := by
  unfold completeDanglingVariable
  split
  · split <;> rfl
  · rfl

/-- A sample builder state over the field of order 101 with one internal
wire already allocated. -/
def csEx : ConstraintSystem := ⟨101, 1, [], []⟩

/-- The Variable handle of that internal wire (boolean flag clear). -/
def vEx : Variable := freshVar 0

/-- The same handle with the known-boolean flag set. -/
def vExT : Variable := ⟨some (internalWire 0), [⟨1, internalWire 0⟩], true⟩

/-- A trivial external Edwards-parameter table. -/
def extTriv : ID → ExtParams := fun _ => ⟨0, 0, 0, 0, 0, 0⟩

/-- A trivial fr-modulus table. -/
def frTriv : ID → Nat := fun _ => 5

/-- Witness evaluation of a linear expression under a wire assignment. -/
def evalLinExp (s : Wire → Int) (l : List Term) : Int :=
  (l.map (fun t => t.coeff * s t.wire)).sum

/-- Claim C1: Mul of two Variables allocates exactly one fresh internal
wire z, appends exactly one constraint R1C(x, y, z) with the default
single-output hint and returns z; with exactly one constant operand it
returns mulConstant(const, var) and appends nothing; with two constants
it returns Constant of the product and appends nothing. -/
theorem C1_mul_cases (cs : ConstraintSystem) (x y : Variable) (n m : Int) :
    (cs.Mul (.var x) (.var y) [] =
      (freshVar cs.nInternal,
        { cs with
            nInternal := cs.nInternal + 1,
            constraints := cs.constraints ++
              [newR1C (completeDanglingVariable x) (completeDanglingVariable y)
                (freshVar cs.nInternal) .singleOutput] })) ∧
    (cs.Mul (.const n) (.var y) [] = (mulConstant n (completeDanglingVariable y), cs)) ∧
    (cs.Mul (.var x) (.const n) [] = (mulConstant n (completeDanglingVariable x), cs)) ∧
    (cs.Mul (.const n) (.const m) [] = (Constant (.const (n * m)), cs)) :=
  ⟨rfl, rfl, rfl, rfl⟩

/-- Claim C9: the constant fast path of Mul is decided by the dynamic
type of the operand, not its value: Mul(Constant(5), v) is the
two-Variable path (one fresh wire, one constraint), and in general
exactly one constraint is appended iff both operands are of type
Variable. -/
theorem C9_mul_type_directed (cs : ConstraintSystem) (v : Variable) (i1 i2 : CsOp) :
    ((cs.Mul (.var (Constant (.const 5))) (.var v) []).2.constraints.length
        = cs.constraints.length + 1) ∧
    ((cs.Mul (.var (Constant (.const 5))) (.var v) []).2.nInternal = cs.nInternal + 1) ∧
    ((cs.Mul i1 i2 []).2.constraints.length
        = cs.constraints.length + (if isVarOp i1 && isVarOp i2 then 1 else 0)) := by
  refine ⟨by simp [ConstraintSystem.Mul, ConstraintSystem.mulOp, newInternalVariable], rfl, ?_⟩
  cases i1 <;> cases i2 <;>
    simp [ConstraintSystem.Mul, ConstraintSystem.mulOp, newInternalVariable, isVarOp]

/-- Claim C7: addition is commutative up to reduction: for any two
operands, reduce(Add(a, b)) equals reduce(Add(b, a)). -/
theorem C7_add_commutative (cs : ConstraintSystem) (a b : CsOp) :
    reduce cs.p (cs.Add a b []).linExp = reduce cs.p (cs.Add b a []).linExp := by
  show reduce cs.p (reduce cs.p (([] ++ operandLinExp a) ++ operandLinExp b))
      = reduce cs.p (reduce cs.p (([] ++ operandLinExp b) ++ operandLinExp a))
  simp only [List.nil_append]
  rw [reduce_idem, reduce_idem]
  exact reduce_congr _ _ _ (fun k => coeffAt_append_comm _ _ _ k)

/-- Claim C6 counterexample: AssertIsBoolean receives the handle by
value, so the flag set inside the call is lost and a second call with
the same (caller-side) handle appends a second assertion instead of
being skipped. -/
theorem C6_counterexample :
    ((csEx.AssertIsBoolean vEx).AssertIsBoolean vEx).assertions.length = 2 ∧
    (csEx.AssertIsBoolean vEx).assertions.length = 1 := by decide

/-- Claim C6 (amended): AssertIsBoolean appends nothing when the handle
is already flagged boolean, and otherwise appends exactly the assertion
R1C(v, 1 − v, 0); the flag update affects only the callee's by-value
copy, so the skip happens only for handles flagged before the call. -/
theorem C6_assertIsBoolean (cs : ConstraintSystem) (v : Variable) :
    (v.isBoolean = true → cs.AssertIsBoolean v = cs) ∧
    (v.isBoolean = false →
      cs.AssertIsBoolean v =
        { cs with assertions :=
            cs.assertions ++ [boolR1C cs.p (completeDanglingVariable v)] }) := by
  constructor <;> intro h <;>
    simp [ConstraintSystem.AssertIsBoolean, completeDangling_isBoolean, h, boolR1C,
      ConstraintSystem.Sub]

/-- Witness for C6_assertIsBoolean at concrete handles. -/
theorem C6_assertIsBoolean_witness :
    (csEx.AssertIsBoolean vExT = csEx) ∧
    (csEx.AssertIsBoolean vEx =
      { csEx with assertions :=
          csEx.assertions ++ [boolR1C csEx.p (completeDanglingVariable vEx)] }) :=
  ⟨(C6_assertIsBoolean csEx vExT).1 rfl, (C6_assertIsBoolean csEx vEx).2 rfl⟩

/-- Claim C4 counterexample: ToBinary with 0 requested bits does not
complete: the source reads res[0] of the empty bit slice and fails
(index out of range), so no empty bit list and no trivial constraint
are ever produced. -/
theorem C4_counterexample : csEx.ToBinary vEx 0 = none := rfl

/-- Claim C4 (amended): for every builder state and Variable a,
ToBinary(a, 0) aborts on the out-of-range access res[0] instead of
returning an empty decomposition with a trivial constraint. -/
theorem C4_toBinary_zero (cs : ConstraintSystem) (a : Variable) :
    cs.ToBinary a 0 = none := rfl

/-- Claim C8: NewEdCurve succeeds exactly on the six registered curve
identities, returning the record of that identity, and yields the
unknown-curve error with the zero-value record on a miss. -/
theorem C8_newEdCurve (ext : ID → ExtParams) (frMod : ID → Nat) (id : ID) :
    ((NewEdCurve ext frMod id).2 = none ↔ id ≠ .UNKNOWN) ∧
    (id = .UNKNOWN → NewEdCurve ext frMod id = (emptyEdCurve, some "unknown curve id")) ∧
    (id ≠ .UNKNOWN → (NewEdCurve ext frMod id).1.id = id) := by
  cases id <;>
    simp [NewEdCurve, newTwistedEdwards, newEdBN254, newEdBLS381, newEdBLS377,
      newEdBW761, newEdBLS315, newEdBW633]

/-- Witness for C8_newEdCurve: a registered identity succeeds, the
unregistered identity yields the unknown-curve error and empty record. -/
theorem C8_newEdCurve_witness :
    ((NewEdCurve extTriv frTriv .BN254).2 = none) ∧
    (NewEdCurve extTriv frTriv .UNKNOWN = (emptyEdCurve, some "unknown curve id")) :=
  ⟨(C8_newEdCurve extTriv frTriv .BN254).1.mpr (by decide),
   (C8_newEdCurve extTriv frTriv .UNKNOWN).2.1 rfl⟩

/-- Claim C10: IsZero called with the one identity outside the six
supported curves fails with the "not implemented" panic, while for any
identity other than UNKNOWN the modulus-selection switch succeeds and
the call returns a result. -/
theorem C10_isZero_panic (frMod : ID → Nat) (cs : ConstraintSystem) (a : Variable) :
    (ConstraintSystem.IsZero frMod cs a .UNKNOWN = .error "not implemented") ∧
    (∀ id : ID, id ≠ .UNKNOWN →
      ∃ r, ConstraintSystem.IsZero frMod cs a id = .ok r) := by
  refine ⟨rfl, ?_⟩
  intro id h
  cases id
  · exact absurd rfl h
  all_goals exact ⟨_, rfl⟩

/-- Witness for C10_isZero_panic at a concrete state and identity. -/
theorem C10_isZero_panic_witness :
    (ConstraintSystem.IsZero frTriv csEx vEx .UNKNOWN = .error "not implemented") ∧
    (∃ r, ConstraintSystem.IsZero frTriv csEx vEx .BN254 = .ok r) :=
  ⟨(C10_isZero_panic frTriv csEx vEx).1,
   (C10_isZero_panic frTriv csEx vEx).2 .BN254 (by decide)⟩

/-- Claim C2 evaluated at the failing input: with both branch values
constant (i1 = 7, i2 = 3), Select records no constraint, but the value
of the returned expression at selector value 1 is −1 (mod 101: 100),
not 7 as the claim requires; at selector value 0 it is 3 as claimed.
The source computes diff = i2 − i1 instead of i1 − i2. -/
theorem C2_select_const_const :
    ((csEx.Select vEx (.const 7) (.const 3)).2.constraints = csEx.constraints) ∧
    (evalLinExp (fun _ => 1) (csEx.Select vEx (.const 7) (.const 3)).1.linExp % 101
        = 101 - 1) ∧
    (evalLinExp (fun w => if w.vis = Vis.one then 1 else 0)
        (csEx.Select vEx (.const 7) (.const 3)).1.linExp % 101 = 3) ∧
    ((7 : Int) % 101 = 7) := by decide

/-- range' with one more element, split at the top. -/
theorem range'_split_top (n : Nat) : ∀ s : Nat,
    List.range' s (n+1) = List.range' s n ++ [s+n] := by
  induction n with
  | zero => intro s; simp [List.range'_succ]
  | succ n ih =>
    intro s
    rw [List.range'_succ, ih (s+1), List.range'_succ]
    have h : s + 1 + n = s + (n + 1) := by omega
    simp [h]

/-- Splitting a remainder modulo 2^(len+1) into top bit and low part. -/
theorem mod_two_pow_succ (x len : Nat) :
    x % 2^(len+1) = 2^len * (x / 2^len % 2) + x % 2^len := by
  rw [pow_succ, Nat.mod_mul]
  omega

/-- The exponent accumulated by the high-to-low square-and-multiply loop
over bit indices lo+len−1 … lo equals the bit field p[lo … lo+len). -/
theorem expStep_fold (p : Nat) : ∀ (len lo e : Nat),
    ((List.range' lo len).reverse).foldl (expStep p) e = e * 2^len + (p / 2^lo) % 2^len := by
  intro len
  induction len with
  | zero => intro lo e; simp [Nat.mod_one]
  | succ len ih =>
    intro lo e
    rw [range'_split_top len lo, List.reverse_append]
    simp only [List.reverse_singleton, List.singleton_append, List.foldl_cons]
    rw [ih lo (expStep p e (lo+len))]
    have hbit : (if p.testBit (lo+len) then 1 else 0) = p / 2^lo / 2^len % 2 := by
      rw [Nat.testBit_to_div_mod, Nat.div_div_eq_div_mul, ← Nat.pow_add]
      rcases Nat.mod_two_eq_zero_or_one (p / 2^(lo+len)) with h | h <;> simp [h]
    rw [mod_two_pow_succ (p / 2^lo) len]
    unfold expStep
    rw [hbit]
    ring

/-- Every positive number fits in 8·byteLength(n) bits. -/
theorem lt_two_pow_byteLength (n : Nat) (hn : 0 < n) : n < 2 ^ (8 * byteLength n) := by
  unfold byteLength
  rw [if_neg (by omega)]
  have h1 : n < 2 ^ (Nat.log 2 n + 1) := Nat.lt_pow_succ_log_self (by norm_num) n
  have h2 : Nat.log 2 n + 1 ≤ 8 * ((Nat.log2 n + 8) / 8) := by
    rw [Nat.log2_eq_log_two]
    omega
  calc n < 2 ^ (Nat.log 2 n + 1) := h1
    _ ≤ 2 ^ (8 * ((Nat.log2 n + 8) / 8)) := Nat.pow_le_pow_right (by norm_num) h2

/-- For every odd modulus, the loop exponent with its final doubling is
exactly p − 1. -/
theorem isZeroExponent_eq (p : Nat) (hodd : Odd p) : isZeroExponent p = p - 1 := by
  have hp : 0 < p := by
    rcases hodd with ⟨m, rfl⟩
    omega
  unfold isZeroExponent
  have hnb : 8 ≤ 8 * byteLength p := by
    have : 1 ≤ byteLength p := by
      unfold byteLength
      rw [if_neg (by omega)]
      omega
    omega
  have hsplit : 8 * byteLength p = (8 * byteLength p - 1) + 1 := by omega
  have hlt : p / 2 < 2 ^ (8 * byteLength p - 1) := by
    have h1 : p < 2 ^ (8 * byteLength p) := lt_two_pow_byteLength p hp
    rw [hsplit, pow_succ] at h1
    omega
  rw [expStep_fold p (8 * byteLength p - 1) 1 0]
  rw [Nat.zero_mul, Nat.zero_add, pow_one, Nat.mod_eq_of_lt hlt]
  rcases hodd with ⟨m, rfl⟩
  omega

/-- The value loop is the exponent loop in the exponent of a. -/
theorem valStep_fold (p : Nat) (a : ZMod p) :
    ∀ (l : List Nat) (r : ZMod p) (e : Nat), r = a ^ e →
      l.foldl (valStep p a) r = a ^ (l.foldl (expStep p) e) := by
  intro l
  induction l with
  | nil =>
    intro r e h
    simpa using h
  | cons i l ih =>
    intro r e h
    rw [List.foldl_cons, List.foldl_cons]
    apply ih
    subst h
    have hsq : a ^ e * a ^ e = a ^ (2 * e) := by
      rw [two_mul, pow_add]
    unfold valStep expStep
    by_cases hb : p.testBit i
    · rw [if_pos hb, if_pos hb, hsq, ← pow_succ]
    · rw [if_neg hb, if_neg hb, hsq, Nat.add_zero]

/-- The witness value of IsZero is 1 − a to the loop exponent. -/
theorem isZeroVal_eq (p : Nat) (a : ZMod p) :
    isZeroVal p a = 1 - a ^ (isZeroExponent p) := by
  unfold isZeroVal isZeroExponent
  rw [valStep_fold p a _ 1 0 (by rw [pow_zero])]
  rw [two_mul, pow_add]

/-- Claim C5: over a field whose (odd) order is p, the square-and-multiply
loop of IsZero over the bits of p from high to low, skipping bit 0, with
one extra final squaring, raises a to the exponent exactly p − 1, so the
returned witness value 1 − a^(p−1) is 1 at a = 0 and 0 at every non-zero
field element (orders of the supported curves are odd primes). -/
theorem C5_isZero_value (p : Nat) (hodd : Odd p) :
    isZeroExponent p = p - 1 ∧
    (p.Prime → ∀ a : ZMod p, isZeroVal p a = if a = 0 then 1 else 0) := by
  refine ⟨isZeroExponent_eq p hodd, ?_⟩
  intro hp a
  haveI : Fact p.Prime := ⟨hp⟩
  rw [isZeroVal_eq, isZeroExponent_eq p hodd]
  by_cases ha : a = 0
  · subst ha
    rw [if_pos rfl, zero_pow (by have := hp.two_le; omega), sub_zero]
  · rw [if_neg ha, ZMod.pow_card_sub_one_eq_one ha, sub_self]

/-- Witness for C5_isZero_value over the field of order 5. -/
theorem C5_isZero_value_witness :
    (isZeroExponent 5 = 5 - 1) ∧
    (isZeroVal 5 (0 : ZMod 5) = if (0 : ZMod 5) = 0 then 1 else 0) ∧
    (isZeroVal 5 (2 : ZMod 5) = if (2 : ZMod 5) = 0 then 1 else 0) :=
  ⟨(C5_isZero_value 5 (by decide)).1,
   (C5_isZero_value 5 (by decide)).2 (by norm_num) 0,
   (C5_isZero_value 5 (by decide)).2 (by norm_num) 2⟩

/-- A Variable without backing wire is left unchanged by completion. -/
theorem completeDangling_wire_none (v : Variable) (h : v.wire = none) :
    completeDanglingVariable v = v := by
  unfold completeDanglingVariable
  rw [h]
  split <;> rfl

/-- wireOfKey inverts key. -/
theorem wireOfKey_key (t : Term) : wireOfKey (key t) = t.wire := by
  unfold wireOfKey key
  simp [visUnrank_visRank]

/-- Reduction of a one-term expression whose coefficient survives mod p. -/
theorem reduce_singleton (p : Nat) (c : Int) (w : Wire) (hc : c % (p : Int) ≠ 0) :
    reduce p [⟨c, w⟩] = [⟨c % (p : Int), w⟩] := by
  have hco : coeffAt p [⟨c, w⟩] (key ⟨c, w⟩) = c % (p : Int) := by
    unfold coeffAt rawSum
    simp [List.filter_singleton]
  unfold reduce supportKeys
  rw [List.map_singleton, List.dedup_eq_self.mpr (List.nodup_singleton _),
    List.filter_singleton]
  rw [show (decide (coeffAt p [⟨c, w⟩] (key ⟨c, w⟩) ≠ 0)) = true by
    rw [hco]; simpa using hc]
  show [(⟨coeffAt p [⟨c, w⟩] (key ⟨c, w⟩), wireOfKey (key ⟨c, w⟩)⟩ : Term)] = _
  rw [hco, wireOfKey_key]

/-- AssertIsBoolean on a freshly allocated internal variable always
records its boolean assertion. -/
theorem assertIsBoolean_freshVar (cs : ConstraintSystem) (j : Nat) :
    cs.AssertIsBoolean (freshVar j) =
      { cs with assertions := cs.assertions ++ [boolR1C cs.p (freshVar j)] } := rfl

/-- Closed form of the ToBinary allocation loop: fresh variables for the
next n internal wires, one boolean assertion each, in order. -/
theorem allocBits_spec : ∀ (n : Nat) (cs : ConstraintSystem),
    cs.allocBits n =
      ((List.range' cs.nInternal n).map freshVar,
       { cs with
          nInternal := cs.nInternal + n,
          assertions := cs.assertions ++
            (List.range' cs.nInternal n).map (fun j => boolR1C cs.p (freshVar j)) }) := by
  intro n
  induction n with
  | zero => intro cs; simp [ConstraintSystem.allocBits]
  | succ n ih =>
    intro cs
    simp only [ConstraintSystem.allocBits, newInternalVariable]
    rw [assertIsBoolean_freshVar, ih]
    simp only [List.range'_succ, List.map_cons]
    have hadd : cs.nInternal + 1 + n = cs.nInternal + (n + 1) := by omega
    simp [hadd, List.append_assoc]

/-- One ToBinary accumulation step in closed form. -/
theorem toBinaryStep_eq (cs : ConstraintSystem) (v b : Variable) (c : Int)
    (hv : v.wire = none) :
    toBinaryStep (v, c, cs) b
      = (⟨none, reduce cs.p (v.linExp ++
          (mulConstant c (completeDanglingVariable b)).linExp), false⟩, c * 2, cs) := by
  show (cs.Add (.var v) (.var (mulConstant c (completeDanglingVariable b))) [], c * 2, cs) = _
  have hAdd : cs.Add (.var v) (.var (mulConstant c (completeDanglingVariable b))) []
      = ⟨none, reduce cs.p (([] ++ (completeDanglingVariable v).linExp) ++
          (completeDanglingVariable
            (mulConstant c (completeDanglingVariable b))).linExp), false⟩ := rfl
  rw [hAdd, completeDangling_wire_none v hv,
    completeDangling_wire_none (mulConstant c (completeDanglingVariable b)) rfl,
    List.nil_append]

/-- mulConstant of a fresh variable in closed form. -/
theorem mulConstant_freshVar (c : Int) (j : Nat) :
    mulConstant c (completeDanglingVariable (freshVar j))
      = ⟨none, [⟨1 * c, internalWire j⟩], false⟩ := rfl

/-- One ToBinary accumulation step on a fresh bit variable. -/
theorem toBinaryStep_freshVar (cs : ConstraintSystem) (v : Variable) (c : Int) (i : Nat)
    (hv : v.wire = none) :
    toBinaryStep (v, c, cs) (freshVar i)
      = (⟨none, reduce cs.p (v.linExp ++ [⟨1 * c, internalWire i⟩]), false⟩, c * 2, cs) := by
  rw [toBinaryStep_eq cs v (freshVar i) c hv]
  rfl

/-- Replacing a left operand of a concatenation by its reduction does not
change the reduction of the whole. -/
theorem reduce_reduce_append (p : Nat) (l1 l2 : List Term) :
    reduce p (reduce p l1 ++ l2) = reduce p (l1 ++ l2) :=
  reduce_congr p _ _ (fun k => coeffAt_reduce_append_left p l1 l2 k)

/-- Peeling the lowest bit off the weighted bit list. -/
theorem gen_cons (c : Int) (i m : Nat) :
    (⟨1 * c, internalWire i⟩ : Term) ::
        (List.range m).map (fun j => (⟨c * 2 * 2^j, internalWire (i+1+j)⟩ : Term))
      = (List.range (m+1)).map (fun j => (⟨c * 2^j, internalWire (i+j)⟩ : Term)) := by
  rw [List.range_succ_eq_map, List.map_cons, List.map_map]
  congr 1
  · rw [show (c * 2^0 : Int) = 1 * c by ring]
    exact rfl
  · apply List.map_congr_left
    intro j _
    show (⟨c * 2 * 2^j, internalWire (i+1+j)⟩ : Term) = ⟨c * 2^(j+1), internalWire (i+(j+1))⟩
    rw [show (c * 2^(j+1) : Int) = c * 2 * 2^j by ring,
      show i + 1 + j = i + (j + 1) by omega]

/-- Closed form of the ToBinary accumulation fold over the bit variables
freshVar i … freshVar (i+m−1), starting from value v and coefficient c:
the builder state is untouched, the coefficient is multiplied by 2^m, and
the value is the reduction of v plus the weighted bits. -/
theorem toBinaryStep_fold (cs : ConstraintSystem) :
    ∀ (m i : Nat) (v : Variable) (c : Int), v.wire = none →
    ((List.range' i m).map freshVar).foldl toBinaryStep (v, c, cs)
      = (if m = 0 then v
         else ⟨none, reduce cs.p (v.linExp ++
            (List.range m).map (fun j => ⟨c * 2^j, internalWire (i + j)⟩)), false⟩,
         c * 2^m, cs) := by
  intro m
  induction m with
  | zero =>
    intro i v c _
    simp
  | succ m ih =>
    intro i v c hv
    rw [List.range'_succ, List.map_cons, List.foldl_cons]
    rw [toBinaryStep_freshVar cs v c i hv]
    rw [ih (i+1) (⟨none, reduce cs.p (v.linExp ++ [(⟨1 * c, internalWire i⟩ : Term)]),
      false⟩ : Variable) (c*2) rfl]
    rw [if_neg (Nat.succ_ne_zero m)]
    by_cases hm : m = 0
    · subst hm
      simp only [eq_self_iff_true, if_true, Prod.mk.injEq, Variable.mk.injEq,
        true_and, and_true]
      refine ⟨?_, by ring⟩
      rw [show (List.range 1).map (fun j => (⟨c * 2^j, internalWire (i + j)⟩ : Term))
          = [⟨1 * c, internalWire i⟩] by
        simp only [List.range_succ, List.range_zero, List.nil_append, List.map_cons,
          List.map_nil]
        rw [show (c * 2^0 : Int) = 1 * c by ring]
        rfl]
    · rw [if_neg hm]
      simp only [Prod.mk.injEq, Variable.mk.injEq, true_and, and_true]
      refine ⟨?_, by ring⟩
      rw [reduce_reduce_append, List.append_assoc, List.singleton_append, gen_cons]

/-- The weighted little-endian bit list Σ 2^i·b_i over n fresh internal
wires starting at wire n0: term i carries coefficient 2^i on wire n0+i. -/
def weighted (n0 n : Nat) : List Term :=
  (List.range n).map (fun i => ⟨(2:Int)^i, internalWire (n0 + i)⟩)

/-- Decomposing the weighted bit list at its least-significant bit. -/
theorem weighted_cons (n0 k : Nat) :
    (⟨1 * 1, internalWire n0⟩ : Term) ::
        (List.range k).map (fun j => (⟨2 * 2^j, internalWire (n0+1+j)⟩ : Term))
      = weighted n0 (k+1) := by
  unfold weighted
  rw [List.range_succ_eq_map, List.map_cons, List.map_map]
  congr 1
  apply List.map_congr_left
  intro j _
  show (⟨2 * 2^j, internalWire (n0+1+j)⟩ : Term) = ⟨(2:Int)^(j+1), internalWire (n0+(j+1))⟩
  rw [show ((2:Int)^(j+1)) = 2 * 2^j by ring, show n0+1+j = n0+(j+1) by omega]

/-- The weighted list of a single bit survives reduction as coefficient 1
on its wire. -/
theorem reduce_weighted_one (p : Nat) (n0 : Nat) (hp : 2 ≤ p) :
    reduce p (weighted n0 1) = [⟨1, internalWire n0⟩] := by
  have h1 : weighted n0 1 = [⟨1, internalWire n0⟩] := by
    unfold weighted
    simp only [List.range_succ, List.range_zero, List.nil_append, List.map_cons, List.map_nil]
    rw [show ((2:Int)^0) = 1 by norm_num]
    exact rfl
  have hple : (2:Int) ≤ (p : Int) := by exact_mod_cast hp
  rw [h1, reduce_singleton p 1 (internalWire n0) (by
    rw [Int.emod_eq_of_lt (by norm_num) (by omega)]
    norm_num)]
  rw [Int.emod_eq_of_lt (by norm_num) (by omega)]

/-- Claim C3: for n ≥ 1 (over a field modulus ≥ 2), ToBinary(a, n)
allocates the n fresh internal wires b_0 … b_{n−1}, records one boolean
assertion per bit, appends exactly one constraint
R1C(Σ 2^i·b_i, 1, a) carrying the binary-decomposition hint, and returns
the bits little-endian: bit i is the variable of wire nInternal+i, which
carries coefficient 2^i in the constraint's left expression. -/
theorem C3_toBinary (cs : ConstraintSystem) (a : Variable) (n : Nat)
    (hn : 1 ≤ n) (hp : 2 ≤ cs.p) :
    cs.ToBinary a n = some
      ((List.range' cs.nInternal n).map freshVar,
       { cs with
          nInternal := cs.nInternal + n,
          assertions := cs.assertions ++
            (List.range' cs.nInternal n).map (fun j => boolR1C cs.p (freshVar j)),
          constraints := cs.constraints ++
            [⟨reduce cs.p (weighted cs.nInternal n), [⟨1, oneWire⟩],
              (completeDanglingVariable a).linExp, .binaryDec⟩] }) := by
  obtain ⟨k, rfl⟩ : ∃ k, n = k + 1 := ⟨n - 1, by omega⟩
  simp only [ConstraintSystem.ToBinary]
  rw [allocBits_spec]
  simp only [List.range'_succ, List.map_cons]
  rw [show ∀ cs' : ConstraintSystem, cs'.Mul (.var (freshVar cs.nInternal)) (.const 1) []
      = ((⟨none, [(⟨1 * 1, internalWire cs.nInternal⟩ : Term)], false⟩ : Variable), cs')
    from fun _ => rfl]
  rw [toBinaryStep_fold _ k (cs.nInternal+1)
    (⟨none, [(⟨1 * 1, internalWire cs.nInternal⟩ : Term)], false⟩ : Variable) 2 rfl]
  by_cases hk : k = 0
  · subst hk
    simp only [if_pos rfl, newR1C]
    rw [show reduce cs.p (weighted cs.nInternal 1) = [⟨1, internalWire cs.nInternal⟩]
      from reduce_weighted_one cs.p cs.nInternal hp]
    rfl
  · rw [if_neg hk]
    simp only [newR1C]
    rw [show ([(⟨1 * 1, internalWire cs.nInternal⟩ : Term)] ++
        (List.range k).map (fun j => (⟨2 * 2^j, internalWire (cs.nInternal+1+j)⟩ : Term)))
      = weighted cs.nInternal (k+1) from by
        rw [List.singleton_append, weighted_cons]]
    rfl

/-- Witness for C3_toBinary: two bits over the 101-field state. -/
theorem C3_toBinary_witness :
    csEx.ToBinary vEx 2 = some
      ((List.range' csEx.nInternal 2).map freshVar,
       { csEx with
          nInternal := csEx.nInternal + 2,
          assertions := csEx.assertions ++
            (List.range' csEx.nInternal 2).map (fun j => boolR1C csEx.p (freshVar j)),
          constraints := csEx.constraints ++
            [⟨reduce csEx.p (weighted csEx.nInternal 2), [⟨1, oneWire⟩],
              (completeDanglingVariable vEx).linExp, .binaryDec⟩] }) :=
  C3_toBinary csEx vEx 2 (by norm_num) (by decide)
